import Mathlib

/-!
Verification of the extraction/normalization pipeline in
`src/data/collect/data_centralize.py` (Harmonic-lab).

The Python functions are shallowly embedded as total Lean functions over
`String` (a structure holding a `List Char`, matching Python's sequence of
code points for the ASCII data handled here).  HTML documents are abstracted
at the boundaries the code itself uses: feedback rows become
`(label, value)` string pairs, transcript blocks become records of the
optional bold span, optional italic span, and full text, and summary
sections become lists of paragraph texts.
-/

namespace DataCentralize

/-! ## Python string primitives -/

/-- Whitespace recognised by Python's `str.split()` / `str.strip()`
restricted to the ASCII range (the data handled by the pipeline). -/
def pyWsB (c : Char) : Bool :=
  c == ' ' || c == '\t' || c == '\n' || c == '\r' || c == '\x0b' || c == '\x0c'

/-- Python `s.split()`: split on whitespace runs, dropping empty pieces.
`cur` accumulates the current word in reverse. -/
def splitWsAux (cur : List Char) : List Char → List (List Char)
  | [] => if cur.isEmpty then [] else [cur.reverse]
  | c :: t =>
    if pyWsB c then
      if cur.isEmpty then splitWsAux [] t else cur.reverse :: splitWsAux [] t
    else
      splitWsAux (c :: cur) t

/-- Python `" ".join(words)` over character lists. -/
def joinWs : List (List Char) → List Char
  | [] => []
  | [w] => w
  | w :: ws => w ++ ' ' :: joinWs ws

/-- Python `sep.join(strs)`. -/
def joinSepStr (sep : String) : List String → String
  | [] => ""
  | [s] => s
  | s :: t => s ++ sep ++ joinSepStr sep t

/-- Python `s.strip()` (ASCII whitespace). -/
def pyStripStr (s : String) : String :=
  ⟨(((s.data.dropWhile pyWsB).reverse).dropWhile pyWsB).reverse⟩

/-- Python `s.lstrip(c)` for a single strip character. -/
def pyLstripChar (d : Char) (s : String) : String :=
  ⟨s.data.dropWhile (· == d)⟩

/-- Python `s.rstrip(c)` for a single strip character. -/
def pyRstripChar (d : Char) (s : String) : String :=
  ⟨((s.data.reverse).dropWhile (· == d)).reverse⟩

/-- Python `s.lower()` (ASCII). -/
def pyLower (s : String) : String :=
  ⟨s.data.map Char.toLower⟩

/-- Python `s.upper()` (ASCII). -/
def pyUpper (s : String) : String :=
  ⟨s.data.map Char.toUpper⟩

/-- Helper for Python `s.title()`: `prevCased` records whether the previous
character was a letter. -/
def pyTitleAux : Bool → List Char → List Char
  | _, [] => []
  | prevCased, c :: t =>
    if c.isAlpha then
      (if prevCased then c.toLower else c.toUpper) :: pyTitleAux true t
    else
      c :: pyTitleAux false t

/-- Python `s.title()` (ASCII). -/
def pyTitle (s : String) : String :=
  ⟨pyTitleAux false s.data⟩

/-- Boolean list-prefix test. -/
def isPrefixB : List Char → List Char → Bool
  | [], _ => true
  | _ :: _, [] => false
  | a :: as, b :: bs => a == b && isPrefixB as bs

/-- Boolean substring (contiguous infix) test, Python's `needle in hay`. -/
def isInfixB (needle : List Char) : List Char → Bool
  | [] => isPrefixB needle []
  | c :: t => isPrefixB needle (c :: t) || isInfixB needle t

/-- Substring test on `String`s. -/
def hasSub (needle s : String) : Bool :=
  isInfixB needle.data s.data

/-- Python `s.split(d)` for a one-character separator: always returns at
least one (possibly empty) piece. -/
def splitOnChar (d : Char) : List Char → List (List Char)
  | [] => [[]]
  | c :: t =>
    if c = d then [] :: splitOnChar d t
    else
      match splitOnChar d t with
      | [] => [[c]]
      | w :: ws => (c :: w) :: ws

/-- Split a character list at the first occurrence of `d`, dropping the
delimiter; `none` when `d` does not occur. -/
def breakAtChar (d : Char) : List Char → Option (List Char × List Char)
  | [] => none
  | c :: t =>
    if c = d then some ([], t)
    else (breakAtChar d t).map (fun p => (c :: p.1, p.2))

/-- Longest prefix on which `p` is false, paired with the remainder
(delimiter included in the remainder). -/
def spanUntil (p : Char → Bool) : List Char → List Char × List Char
  | [] => ([], [])
  | c :: t =>
    if p c then ([], c :: t)
    else
      let r := spanUntil p t
      (c :: r.1, r.2)

/-- Python `s.replace(needle, repl)` with a nonempty needle `n0 :: ns`:
non-overlapping occurrences scanned left to right.  Structural recursion on
`fuel`, which the wrapper sets to the list length; a match consumes
at least one character per unit of fuel, so with fuel initialised to the
list length the `0` fallback is unreachable. -/
def pyReplaceLAux (n0 : Char) (ns repl : List Char) : Nat → List Char → List Char
  | _, [] => []
  | 0, l => l
  | fuel + 1, c :: t =>
    if isPrefixB (n0 :: ns) (c :: t) then
      repl ++ pyReplaceLAux n0 ns repl fuel (t.drop ns.length)
    else c :: pyReplaceLAux n0 ns repl fuel t

/-- Python `s.replace(needle, repl)` on strings (identity for an empty
needle, which never occurs in the embedded code). -/
def pyReplaceStr (needle repl s : String) : String :=
  match needle.data with
  | [] => s
  | n0 :: ns => ⟨pyReplaceLAux n0 ns repl.data s.data.length s.data⟩

/-- Lexicographic comparison of character lists by code point, Python's
string `<=`. -/
def charListLe : List Char → List Char → Bool
  | [], _ => true
  | _ :: _, [] => false
  | a :: as, b :: bs =>
    if a < b then true
    else if b < a then false
    else charListLe as bs

/-- Python string `<=` (lexicographic by code point). -/
def strLeB (s t : String) : Bool :=
  charListLe s.data t.data

/-- Insert into a `strLeB`-sorted list. -/
def insertSorted (x : String) : List String → List String
  | [] => [x]
  | y :: t => if strLeB x y then x :: y :: t else y :: insertSorted x t

/-- Sort a list of strings ascending by `strLeB` (models Python `sorted`). -/
def sortStrings (l : List String) : List String :=
  l.foldr insertSorted []

/-- Keep the first occurrence of each element, dropping elements already in
`seen` (models iteration order-independent parts of Python `set`). -/
def dedupFirstAux (seen : List String) : List String → List String
  | [] => []
  | x :: t => if x ∈ seen then dedupFirstAux seen t else x :: dedupFirstAux (x :: seen) t

/-- Deduplicate keeping first occurrences. -/
def dedupFirst (l : List String) : List String :=
  dedupFirstAux [] l

/-- First value bound to key `k` in an association list (models Python dict
lookup; the embedded builders never bind a key twice). -/
def kvLookup (k : String) : List (String × String) → Option String
  | [] => none
  | p :: t => if k = p.1 then some p.2 else kvLookup k t

/-- Left-biased choice on options. -/
def optOr : Option String → Option String → Option String
  | some v, _ => some v
  | none, b => b

/-! ## Model of CPython `urllib.parse.urlparse(url).path` -/

/-- Characters allowed in a URL scheme after the initial letter. -/
def schemeChar (c : Char) : Bool :=
  c.isAlpha || c.isDigit || c == '+' || c == '-' || c == '.'

/-- Scheme split step of `urlsplit`: if the text before the first `:` is a
valid scheme (nonempty, starts with a letter, scheme characters only), drop
it together with the colon. -/
def schemeSplit (l : List Char) : List Char × List Char :=
  match breakAtChar ':' l with
  | none => ([], l)
  | some (pre, rest) =>
    match pre with
    | [] => ([], l)
    | p0 :: _ =>
      if p0.isAlpha && pre.all schemeChar then (pre.map Char.toLower, rest)
      else ([], l)

/-- Schemes for which `urlparse` splits `;parameters` off the path
(CPython's `uses_params`, with the empty scheme included). -/
def usesParams : List String :=
  ["", "ftp", "hdl", "prospero", "http", "imap", "https", "shttp", "rtsp",
   "rtspu", "sip", "sips", "mms", "sftp", "tel"]

/-- CPython `_splitparams` applied to a path: cut the last `/`-separated
segment at its first `;`. -/
def splitParams (l : List Char) : List Char :=
  match (splitOnChar '/' l).reverse with
  | [] => l
  | lastSeg :: revInit =>
    joinWs' (revInit.reverse ++ [(spanUntil (· == ';') lastSeg).1])
where
  joinWs' : List (List Char) → List Char
    | [] => []
    | [w] => w
    | w :: ws => w ++ '/' :: joinWs' ws

/-- Path component of CPython `urllib.parse.urlparse(url)`: strip leading
C0-control/space characters, remove tab/CR/LF, drop a valid scheme, drop a
`//netloc`, drop the fragment and query, and split parameters off the last
segment for the schemes that use them. -/
def pyUrlparsePath (url : String) : String :=
  let l := url.data.dropWhile (fun c => c.toNat ≤ 32)
  let l := l.filter (fun c => !(c == '\t' || c == '\n' || c == '\r'))
  let sr := schemeSplit l
  let rest := sr.2
  let rest :=
    if isPrefixB ['/', '/'] rest then
      (spanUntil (fun c => c == '/' || c == '?' || c == '#') (rest.drop 2)).2
    else rest
  let rest := (spanUntil (· == '#') rest).1
  let rest := (spanUntil (· == '?') rest).1
  if usesParams.contains (⟨sr.1⟩ : String) then ⟨splitParams rest⟩ else ⟨rest⟩

/-! ## Embedded source definitions (`data_centralize.py`) -/

/-- `clean_text(s)`: `" ".join((s or "").split()).strip()`. -/
def clean_text (s : String) : String :=
  pyStripStr ⟨joinWs (splitWsAux [] s.data)⟩

/-- `normalize(s)`: `clean_text(s).lower()`. -/
def normalize (s : String) : String :=
  pyLower (clean_text s)

/-- `LANG_ALIASES`, in source (= dict insertion) order. -/
def aliasList : List (String × String) :=
  [("c-plus-plus", "C++"), ("cplusplus", "C++"), ("cpp", "C++"),
   ("python", "Python"), ("java", "Java"), ("go", "Go"), ("golang", "Go"),
   ("javascript", "JavaScript"), ("typescript", "TypeScript"),
   ("csharp", "C#"), ("c#", "C#"), ("ruby", "Ruby"), ("swift", "Swift"),
   ("kotlin", "Kotlin"), ("rust", "Rust"), ("php", "PHP")]

/-- `LANG_ALIASES.get(tok, "")`. -/
def aliasGet (tok : String) : String :=
  (kvLookup tok aliasList).getD ""

/-- Guard chain of `filter_links` for a single URL: each Python
`continue` is the negation of one conjunct, in source order. -/
def linkKeep (url : String) : Bool :=
  url != "" &&
  hasSub "mocks" url &&
  !(hasSub "system-design" url) &&
  !(hasSub "behavioral" url) &&
  (let path := pyRstripChar '/' (pyUrlparsePath url)
   path != "/mocks" &&
   isPrefixB "/mocks/".data path.data &&
   !((splitOnChar '/' path.data).length < 3))

/-- `filter_links(urls)`: the kept URLs collected into a `set` and
`sorted` — modelled as first-occurrence dedup followed by an ascending
lexicographic sort. -/
def filter_links (urls : List String) : List String :=
  sortStrings (dedupFirst (urls.filter linkKeep))

/-- Last `/`-separated segment of a string (`.split("/")[-1]`). -/
def lastSegment (s : String) : String :=
  match (splitOnChar '/' s.data).getLast? with
  | some w => ⟨w⟩
  | none => ""

/-- `parse_slug(url)`: best-effort `(company, language, topic)` guesses from
the last path segment. -/
def parse_slug (url : String) : String × String × String :=
  let slug := lastSegment (pyRstripChar '/' (pyUrlparsePath url))
  let parts := (splitOnChar '-' slug.data).map (fun w => (⟨w⟩ : String))
  let company_guess :=
    match parts with
    | [] => ""
    | p :: _ => if pyLower p = "faang" then pyUpper p else pyTitle p
  let language_guess :=
    if 2 ≤ parts.length then aliasGet (pyLower (parts.getD 1 "")) else ""
  let joined :=
    if 3 ≤ parts.length then pyLower (joinSepStr "-" ((parts.drop 1).take 2)) else ""
  let language_guess :=
    if language_guess = "" && (kvLookup joined aliasList).isSome then aliasGet joined
    else language_guess
  let topic_start :=
    if 3 ≤ parts.length &&
       (kvLookup (pyLower (joinSepStr "-" ((parts.drop 1).take 2))) aliasList).isSome
    then 3 else 2
  let topic_guess :=
    pyStripStr (joinSepStr " " ((parts.drop topic_start).filter (fun p => p ≠ "")))
  let topic_guess := pyReplaceStr "  " " " topic_guess
  (company_guess, language_guess, topic_guess)


/-! ## Summary table builder (`extract_summary_kv`) -/

/-- Adjacent pairs `(ps[i], ps[i+1])` of a list, for the pairwise scan of
summary paragraphs. -/
def adjacentPairs : List String → List (String × String)
  | a :: b :: t => (a, b) :: adjacentPairs (b :: t)
  | _ => []

/-- One `extract_summary_kv` loop iteration: clean both paragraph texts,
keep the pair when the label is 1–40 characters and the value nonempty, and
bind the normalized label only if it is not already bound. -/
def summary_step (kv : List (String × String)) (pair : String × String) :
    List (String × String) :=
  let label := clean_text pair.1
  let value := clean_text pair.2
  if 1 ≤ label.length ∧ label.length ≤ 40 ∧ 0 < value.length then
    let key := normalize label
    if (kvLookup key kv).isSome then kv else kv ++ [(key, value)]
  else kv

/-- `extract_summary_kv`, with the summary section abstracted as the list of
its paragraph texts (`ps[i].get_text()` in document order). -/
def extract_summary_kv (ps : List String) : List (String × String) :=
  (adjacentPairs ps).foldl summary_step []

/-! ## Field resolvers -/

/-- First key of `keys` present in the table, with its value
(the `for key in (...)` probe loops of the resolvers). -/
def kvLookupFirst (keys : List String) (kv : List (String × String)) : Option String :=
  match keys with
  | [] => none
  | k :: ks =>
    match kvLookup k kv with
    | some v => some v
    | none => kvLookupFirst ks kv

/-- `extract_problem_name(summary_kv)`. -/
def extract_problem_name (kv : List (String × String)) : String :=
  (kvLookupFirst ["problem type", "problem", "question", "question name"] kv).getD ""

/-- Alias scan of `extract_language` step 1: first `(tok, pretty)` of
`LANG_ALIASES` (dict insertion order) with `tok` or `pretty.lower()` a
substring of `v`. -/
def aliasHitAux (v : String) : List (String × String) → Option String
  | [] => none
  | (tok, pretty) :: rest =>
    if hasSub tok v || hasSub (pyLower pretty) v then some pretty
    else aliasHitAux v rest

/-- Title test of `extract_language` step 2 for one canonical name: the
title starts with the name, or contains "<name> interview". -/
def titleHit (pretty title : String) : Bool :=
  isPrefixB (pyLower pretty).data (pyLower title).data ||
  hasSub (pyLower pretty ++ " interview") (pyLower title)

/-- Scan of `extract_language` step 2 over the canonical names in the given
iteration order, returning the first hit. -/
def titleScanLang : List String → String → Option String
  | [], _ => none
  | p :: rest, title => if titleHit p title then some p else titleScanLang rest title

/-- `extract_language(summary_kv, interview_title, url)`.  The Python code
iterates `set(LANG_ALIASES.values())`, whose iteration order CPython does
not fix (string hashing is seeded per process); the order is therefore an
explicit parameter `order` here. -/
def extract_language (order : List String) (kv : List (String × String))
    (title url : String) : String :=
  match kvLookupFirst ["language", "programming language"] kv with
  | some val =>
    let v := pyReplaceStr "c#" "c#" (pyReplaceStr "c plus plus" "c++" (pyLower val))
    match aliasHitAux v aliasList with
    | some pretty => pretty
    | none => val
  | none =>
    match titleScanLang order title with
    | some pretty => pretty
    | none => (parse_slug url).2.1

/-- Keyword test of `extract_company` step 2: nonempty, not an alias token,
not "faang"/"interview", first character uppercase, at most 30 characters. -/
def companyQualify (k : String) : Bool :=
  if k = "" then false
  else if (aliasList.map Prod.fst).contains (pyLower k) ||
          pyLower k = "faang" || pyLower k = "interview" then false
  else (match k.data with | [] => false | c :: _ => c.isUpper) && k.length ≤ 30

/-- First keyword accepted by `companyQualify` (the keyword loop of
`extract_company`). -/
def findCompanyKw : List String → Option String
  | [] => none
  | k :: rest => if companyQualify k then some k else findCompanyKw rest

/-- `extract_company(summary_kv, keywords, url)`. -/
def extract_company (kv : List (String × String)) (keywords : List String)
    (url : String) : String :=
  match kvLookupFirst ["company", "interviewer company"] kv with
  | some v => v
  | none =>
    match findCompanyKw keywords with
    | some k => k
    | none => (parse_slug url).1

/-- Keyword filter of `extract_topics`: drop "faang"/"interview" and alias
tokens (by lowercased text). -/
def keepTopic (k : String) : Bool :=
  let kl := pyLower k
  !(kl = "faang" || kl = "interview") && !((aliasList.map Prod.fst).contains kl)

/-- `extract_topics(keywords, url)`. -/
def extract_topics (keywords : List String) (url : String) : String :=
  let out := dedupFirst (keywords.filter keepTopic)
  if !keywords.isEmpty && !out.isEmpty then joinSepStr "; " out
  else (parse_slug url).2.2

/-! ## Outcome and scores (`extract_outcome_and_scores`) -/

/-- The six score slots, in `SCORE_COLS` order. -/
structure Scores where
  s_excited : String
  s_questions : String
  s_helpful : String
  s_problem : String
  s_technical : String
  s_communication : String
deriving DecidableEq

/-- The all-empty initial `ScoreSet`. -/
def emptyScores : Scores :=
  ⟨"", "", "", "", "", ""⟩

/-- The `elif` chain of `extract_outcome_and_scores`: the first phrase
contained in the (normalized) label selects the slot that receives `value`;
no phrase leaves the scores unchanged. -/
def fillSlot (label value : String) (sc : Scores) : Scores :=
  if hasSub "excited" label then { sc with s_excited := value }
  else if hasSub "good were the questions" label then { sc with s_questions := value }
  else if hasSub "helpful was your interviewer" label then { sc with s_helpful := value }
  else if hasSub "problem solving" label then { sc with s_problem := value }
  else if hasSub "technical skills" label then { sc with s_technical := value }
  else if hasSub "communication" label then { sc with s_communication := value }
  else sc

/-- One feedback row of `extract_outcome_and_scores`: the row is the pair
of raw texts of its label cell and value cell; the two `if` statements of
the loop body are independent (the second is not an `elif`). -/
def stepRow (st : String × Scores) (row : String × String) : String × Scores :=
  let label := normalize row.1
  let value := clean_text row.2
  let outcome :=
    if hasSub "advance this person to the next round" label then value else st.1
  let scores := if hasSub "/4" value then fillSlot label value st.2 else st.2
  (outcome, scores)

/-- `extract_outcome_and_scores`, with the feedback section abstracted as
the list of its rows' `(label, value)` raw texts in document order. -/
def extract_outcome_and_scores (rows : List (String × String)) : String × Scores :=
  rows.foldl stepRow ("", emptyScores)

/-! ## Transcript flattener (`extract_transcript_one_line`) -/

/-- A transcript block: optional bold-span text, optional italic-span text,
and the block's full text. -/
structure Block where
  bold : Option String
  italic : Option String
  full : String
deriving DecidableEq

/-- Speaker variable of the transcript loop before colon stripping. -/
def blockSpeaker (b : Block) : String :=
  match b.bold with
  | some s => clean_text s
  | none => ""

/-- Text (utterance) variable of the transcript loop before colon
stripping: the italic span when present, else the block's full text. -/
def blockUtterance (b : Block) : String :=
  match b.italic with
  | some t => clean_text t
  | none => clean_text b.full

/-- Fragment emitted for one block: `"speaker: text"` when both survive the
colon/whitespace stripping, just `text` when only the text does, nothing
otherwise. -/
def transcriptChunk (b : Block) : Option String :=
  let speaker := pyStripStr (pyRstripChar ':' (blockSpeaker b))
  let text := pyStripStr (pyLstripChar ':' (blockUtterance b))
  if speaker ≠ "" ∧ text ≠ "" then some (speaker ++ ": " ++ text)
  else if text ≠ "" then some text
  else none

/-- `extract_transcript_one_line`, with the transcript section abstracted
as its list of blocks in document order. -/
def extract_transcript_one_line (blocks : List Block) : String :=
  let chunks := blocks.filterMap transcriptChunk
  let transcript := joinSepStr " " chunks
  ⟨joinWs (splitWsAux [] transcript.data)⟩

/-! ## Record assembly (`main`) -/

/-- The fixed 16-column output schema, in `fieldnames` order. -/
def fieldnames : List String :=
  ["interview_id", "source_url", "interview_title", "problem_name",
   "language", "company", "topics", "advance_to_next_round",
   "score_excited_to_work_with_them", "score_questions_quality",
   "score_interviewer_helpfulness", "score_problem_solving",
   "score_technical_skills", "score_communication",
   "interview_prompt", "transcript"]

/-- The six score columns as `(column, value)` pairs in `SCORE_COLS`
order (`row.update(scores)`). -/
def scoresPairs (sc : Scores) : List (String × String) :=
  [("score_excited_to_work_with_them", sc.s_excited),
   ("score_questions_quality", sc.s_questions),
   ("score_interviewer_helpfulness", sc.s_helpful),
   ("score_problem_solving", sc.s_problem),
   ("score_technical_skills", sc.s_technical),
   ("score_communication", sc.s_communication)]

/-- The `row` dict assembled in `main` for one interview: ten literal
entries followed by the score entries. -/
def rowDict (iid url title problem lang company topics outcome prompt
    transcript : String) (sc : Scores) : List (String × String) :=
  [("interview_id", iid), ("source_url", url), ("interview_title", title),
   ("problem_name", problem), ("language", lang), ("company", company),
   ("topics", topics), ("advance_to_next_round", outcome),
   ("interview_prompt", prompt), ("transcript", transcript)] ++ scoresPairs sc

/-- The CSV-writing step for one row: `r.setdefault(c, "")` for every
schema column followed by `DictWriter.writerow` emits, per column in
`fieldnames` order, the bound value or `""`. -/
def finalizeRow (r : List (String × String)) : List (String × String) :=
  fieldnames.map (fun c => (c, (kvLookup c r).getD ""))


/-! ## Statements taken from the specification -/

/-- Per-row update as the specification words it: the outcome branch and
the score branch are joined by "else", so a row either sets the outcome or
fills a score slot, never both. -/
def c1SpecStep (st : String × Scores) (row : String × String) : String × Scores :=
  let label := normalize row.1
  let value := clean_text row.2
  if hasSub "advance this person to the next round" label then (value, st.2)
  else if hasSub "/4" value then (st.1, fillSlot label value st.2)
  else st

/-- Per-row update as amended: the outcome branch and the score branch are
independent, so a row whose label contains both the advance phrase and a
score phrase (with a "/4" value) sets both. -/
def c1AmendedStep (st : String × Scores) (row : String × String) : String × Scores :=
  let label := normalize row.1
  let value := clean_text row.2
  let st1 :=
    if hasSub "advance this person to the next round" label then (value, st.2) else st
  if hasSub "/4" value then (st1.1, fillSlot label value st1.2) else st1

/-- The scores `b` agree with `a` on at least five of the six slots. -/
def scoresChangedAtMostOne (a b : Scores) : Prop :=
  b = a ∨
  b = { a with s_excited := b.s_excited } ∨
  b = { a with s_questions := b.s_questions } ∨
  b = { a with s_helpful := b.s_helpful } ∨
  b = { a with s_problem := b.s_problem } ∨
  b = { a with s_technical := b.s_technical } ∨
  b = { a with s_communication := b.s_communication }

/-! ## Claims C1 and C2: per-row behaviour of the score extractor -/

/-- The per-row updates of the code and of the amended claim coincide. -/
theorem stepRow_eq_c1AmendedStep : stepRow = c1AmendedStep := by
  funext st row
  dsimp only [stepRow, c1AmendedStep]
  split_ifs <;> rfl

/-- Claim C1, counterexample: the spec's "else" between the outcome branch
and the score branch is wrong.  On a row whose label contains both the
advance phrase and "excited" and whose value is "3/4", the code fills the
excited slot as well as the outcome, while the claim's reading leaves every
score slot empty. -/
theorem C1_counterexample :
    extract_outcome_and_scores
      [("Would you advance this person to the next round and were you excited to work with them?",
        "3/4")] ≠
    List.foldl c1SpecStep ("", emptyScores)
      [("Would you advance this person to the next round and were you excited to work with them?",
        "3/4")] := by
  decide

/-- Claim C1 (amended): per feedback row, if the label contains
"advance this person to the next round" the value becomes the outcome, and
independently (not exclusively), if the value contains "/4" the first of
the six phrases contained in the label selects the score slot filled with
the value; a row with label "How good were the questions?" and value "3/4"
sets the questions-quality slot and leaves the other five slots and the
outcome unchanged. -/
theorem C1_row_update :
    (∀ rows : List (String × String),
        extract_outcome_and_scores rows = List.foldl c1AmendedStep ("", emptyScores) rows) ∧
    extract_outcome_and_scores [("How good were the questions?", "3/4")] =
      ("", { emptyScores with s_questions := "3/4" }) := by
  constructor
  · intro rows
    rw [extract_outcome_and_scores, stepRow_eq_c1AmendedStep]
  · decide

/-- Claim C2, counterexample: the result is not invariant under permuting
the rows (two rows targeting the outcome overwrite each other), and a
single row can change two of the seven outputs (the outcome and a score
slot). -/
theorem C2_counterexample :
    (extract_outcome_and_scores
        [("will you advance this person to the next round", "Yes"),
         ("will you advance this person to the next round", "No")] ≠
      extract_outcome_and_scores
        [("will you advance this person to the next round", "No"),
         ("will you advance this person to the next round", "Yes")]) ∧
    ((extract_outcome_and_scores
        [("Would you advance this person to the next round and were you excited to work with them?",
          "3/4")]).1 ≠ "" ∧
     (extract_outcome_and_scores
        [("Would you advance this person to the next round and were you excited to work with them?",
          "3/4")]).2 ≠ emptyScores) := by
  refine ⟨by decide, by decide, by decide⟩

/-- Claim C2 (amended): rows are folded left to right and later rows
targeting the same output overwrite earlier ones, so the result is not
permutation invariant in general; however every single row changes at most
one score slot (the first matching phrase wins, never two slots), plus
possibly the outcome. -/
theorem C2_row_changes_at_most_one_slot :
    ∀ (st : String × Scores) (row : String × String),
      scoresChangedAtMostOne st.2 (stepRow st row).2 := by
  intro st row
  dsimp only [stepRow, fillSlot, scoresChangedAtMostOne]
  split_ifs
  all_goals first
    | exact Or.inl rfl
    | exact Or.inr (Or.inl rfl)
    | exact Or.inr (Or.inr (Or.inl rfl))
    | exact Or.inr (Or.inr (Or.inr (Or.inl rfl)))
    | exact Or.inr (Or.inr (Or.inr (Or.inr (Or.inl rfl))))
    | exact Or.inr (Or.inr (Or.inr (Or.inr (Or.inr (Or.inl rfl)))))
    | exact Or.inr (Or.inr (Or.inr (Or.inr (Or.inr (Or.inr rfl)))))

/-! ## Claim C4: transcript fallback to the block's full text -/

/-- Claim C4, counterexample: a block with an italic span but no bold span
uses the italic text as the utterance, not the block's full text, contrary
to the claim's "if either is missing". -/
theorem C4_counterexample :
    (Block.mk none (some "hello") "say hello").bold = none ∧
    blockUtterance (Block.mk none (some "hello") "say hello") ≠ clean_text "say hello" := by
  exact ⟨rfl, by decide⟩

/-- Claim C4 (amended): the block's full text is used as the utterance
exactly when the italicized span is missing; when the italic span is
present its text is the utterance even if the bold span is missing. -/
theorem C4_utterance_fallback :
    ∀ b : Block,
      (b.italic = none → blockUtterance b = clean_text b.full) ∧
      (∀ t, b.italic = some t → blockUtterance b = clean_text t) := by
  intro b
  constructor
  · intro h
    simp [blockUtterance, h]
  · intro t h
    simp [blockUtterance, h]

/-- Witness for `C4_utterance_fallback` at concrete blocks. -/
theorem C4_utterance_fallback_witness :
    blockUtterance (Block.mk (some "Charlie") none "full  text") = clean_text "full  text" ∧
    blockUtterance (Block.mk none (some "hi") "say hi") = clean_text "hi" :=
  ⟨(C4_utterance_fallback (Block.mk (some "Charlie") none "full  text")).1 rfl,
   (C4_utterance_fallback (Block.mk none (some "hi") "say hi")).2 "hi" rfl⟩

/-! ## Claim C6: determinism of `extract_language` -/

/-- The canonical names `set(LANG_ALIASES.values())` in one possible
iteration order. -/
def canonicalLangsA : List String :=
  ["Java", "JavaScript", "C++", "Python", "Go", "TypeScript", "C#", "Ruby",
   "Swift", "Kotlin", "Rust", "PHP"]

/-- The same canonical names with "Java" and "JavaScript" swapped. -/
def canonicalLangsB : List String :=
  ["JavaScript", "Java", "C++", "Python", "Go", "TypeScript", "C#", "Ruby",
   "Swift", "Kotlin", "Rust", "PHP"]

/-- Claim C6: the title scan iterates `set(LANG_ALIASES.values())`, whose
iteration order CPython randomizes per process, and with a title beginning
"JavaScript" both "Java" and "JavaScript" match, so the result depends on
that order: the two orders below are permutations of the same canonical
names yet yield different languages.  The code therefore contradicts the
spec's "pure functions of their inputs" determinism. -/
theorem C6_set_order_dependence :
    extract_language canonicalLangsA [] "JavaScript interview with Airbnb" "" = "Java" ∧
    extract_language canonicalLangsB [] "JavaScript interview with Airbnb" "" = "JavaScript" ∧
    canonicalLangsA.Perm canonicalLangsB := by
  refine ⟨by decide, by decide, ?_⟩
  exact List.Perm.swap "JavaScript" "Java" _

/-! ## Claim C7: `parse_slug` examples -/

/-- Claim C7: the two slug-parsing examples, token 0 title-cased except the
literal "faang" upper-cased, token 1 resolved through the alias table, and
the remaining tokens joined with spaces. -/
theorem C7_parse_slug_examples :
    parse_slug "https://x/mocks/airbnb-python-alien-dictionary" =
      ("Airbnb", "Python", "alien dictionary") ∧
    parse_slug "https://x/mocks/faang-cplusplus-buildings-with-an-ocean-view" =
      ("FAANG", "C++", "buildings with an ocean view") := by
  exact ⟨by decide, by decide⟩


/-! ## Claim C8: the summary table never overwrites a key -/

/-- The value the specification predicts for key `k`: the first
label/value pair in document order that passes the label/value guards and
whose normalized label is `k`. -/
def findFirstValue (k : String) : List (String × String) → Option String
  | [] => none
  | p :: t =>
    let label := clean_text p.1
    let value := clean_text p.2
    if (1 ≤ label.length ∧ label.length ≤ 40 ∧ 0 < value.length) ∧ normalize label = k
    then some value
    else findFirstValue k t

@[simp] theorem optOr_some (v : String) (b : Option String) : optOr (some v) b = some v := rfl

@[simp] theorem optOr_none (b : Option String) : optOr none b = b := rfl

@[simp] theorem optOr_none_right (a : Option String) : optOr a none = a := by
  cases a <;> rfl

theorem kvLookup_append (l m : List (String × String)) (k : String) :
    kvLookup k (l ++ m) = optOr (kvLookup k l) (kvLookup k m) := by
  induction l with
  | nil => simp [kvLookup]
  | cons p t ih =>
    by_cases h : k = p.1 <;> simp [kvLookup, h, ih]

/-- Folding `summary_step` only ever adds bindings for keys that are still
absent, so a lookup sees the accumulator first and otherwise the first
qualifying pair of the remaining scan. -/
theorem summary_lookup_aux (pairs : List (String × String)) :
    ∀ (kv : List (String × String)) (k : String),
      kvLookup k (pairs.foldl summary_step kv) =
        optOr (kvLookup k kv) (findFirstValue k pairs) := by
  induction pairs with
  | nil =>
    intro kv k
    cases h : kvLookup k kv <;> simp [findFirstValue, h]
  | cons p t ih =>
    intro kv k
    rw [List.foldl_cons, ih]
    rw [summary_step, findFirstValue]
    dsimp only
    by_cases hq : 1 ≤ (clean_text p.1).length ∧ (clean_text p.1).length ≤ 40 ∧
        0 < (clean_text p.2).length
    · rw [if_pos hq]
      cases hmem : kvLookup (normalize (clean_text p.1)) kv with
      | some w =>
        simp only [Option.isSome_some, if_true]
        by_cases hkk : normalize (clean_text p.1) = k
        · rw [hkk] at hmem
          simp [hmem]
        · rw [if_neg (fun h => hkk h.2)]
      | none =>
        simp only [Option.isSome_none]
        rw [if_neg (by simp), kvLookup_append]
        by_cases hkk : normalize (clean_text p.1) = k
        · rw [hkk] at hmem
          simp [hkk, hmem, kvLookup, hq]
        · have hk2 : ¬ k = normalize (clean_text p.1) := fun h => hkk h.symm
          simp [kvLookup, hk2, hkk]
    · rw [if_neg hq, if_neg (fun h => hq h.1)]

/-- Claim C8: for every summary section (list of paragraph texts) and every
key, the built table maps the key to the value of the first label/value
pair in document order that normalizes to that key — later pairs with the
same key are dropped, so an existing key is never overwritten; in
particular duplicate "Language" labels keep the first value. -/
theorem C8_first_value_wins :
    (∀ (ps : List String) (k : String),
        kvLookup k (extract_summary_kv ps) = findFirstValue k (adjacentPairs ps)) ∧
    kvLookup "language" (extract_summary_kv ["Language", "Python", "Language", "Java"]) =
      some "Python" := by
  constructor
  · intro ps k
    rw [extract_summary_kv, summary_lookup_aux]
    rfl
  · decide


/-! ## Claim C5: resolvers are total and empty when all fallbacks miss -/

theorem titleScanLang_none (order : List String) (title : String)
    (h : ∀ p ∈ order, titleHit p title = false) : titleScanLang order title = none := by
  induction order with
  | nil => rfl
  | cons p rest ih =>
    simp [titleScanLang, h p (List.mem_cons_self p rest),
      ih (fun q hq => h q (List.mem_cons_of_mem p hq))]

theorem findCompanyKw_none (keywords : List String)
    (h : ∀ k ∈ keywords, companyQualify k = false) : findCompanyKw keywords = none := by
  induction keywords with
  | nil => rfl
  | cons k rest ih =>
    simp [findCompanyKw, h k (List.mem_cons_self k rest),
      ih (fun q hq => h q (List.mem_cons_of_mem k hq))]

/-- Claim C5: the four field resolvers are total Lean functions of their
inputs (so they terminate and always return a string), and when every
fallback level yields nothing — no probed summary key is bound, no
canonical name matches the title, no keyword qualifies, and the slug
guesses are empty — each returns the empty string. -/
theorem C5_resolvers_empty_fallback :
    ∀ (order : List String) (kv : List (String × String)) (keywords : List String)
      (title url : String),
      (kvLookupFirst ["problem type", "problem", "question", "question name"] kv = none →
        extract_problem_name kv = "") ∧
      (kvLookupFirst ["language", "programming language"] kv = none →
        (∀ p ∈ order, titleHit p title = false) →
        (parse_slug url).2.1 = "" →
        extract_language order kv title url = "") ∧
      (kvLookupFirst ["company", "interviewer company"] kv = none →
        (∀ k ∈ keywords, companyQualify k = false) →
        (parse_slug url).1 = "" →
        extract_company kv keywords url = "") ∧
      ((∀ k ∈ keywords, keepTopic k = false) →
        (parse_slug url).2.2 = "" →
        extract_topics keywords url = "") := by
  intro order kv keywords title url
  refine ⟨?_, ?_, ?_, ?_⟩
  · intro h
    rw [extract_problem_name, h]
    rfl
  · intro h1 h2 h3
    rw [extract_language, h1, titleScanLang_none order title h2, h3]
  · intro h1 h2 h3
    rw [extract_company, h1, findCompanyKw_none keywords h2, h3]
  · intro h1 h2
    have hf : keywords.filter keepTopic = [] := List.filter_eq_nil_iff.mpr (by
      intro a ha
      simp [h1 a ha])
    rw [extract_topics]
    simp only [hf]
    simp [dedupFirst, dedupFirstAux, h2]

/-- Witness for `C5_resolvers_empty_fallback`: with an empty summary table,
no keywords, an empty title and an empty URL every resolver returns "". -/
theorem C5_resolvers_empty_fallback_witness :
    extract_problem_name [] = "" ∧
    extract_language canonicalLangsA [] "" "" = "" ∧
    extract_company [] [] "" = "" ∧
    extract_topics [] "" = "" := by
  have h := C5_resolvers_empty_fallback canonicalLangsA [] [] "" ""
  exact ⟨h.1 (by decide), h.2.1 (by decide) (by decide) (by decide),
    h.2.2.1 (by decide) (by decide) (by decide), h.2.2.2 (by decide) (by decide)⟩


/-! ## Claim C10: fixed 16-column schema with empty-string defaults -/

theorem kvLookup_map_self (l : List String) (f : String → String) (c : String)
    (h : c ∈ l) : kvLookup c (l.map (fun x => (x, f x))) = some (f c) := by
  induction l with
  | nil => cases h
  | cons x t ih =>
    by_cases hc : c = x
    · simp [kvLookup, hc]
    · have : c ∈ t := by
        cases h with
        | head => exact absurd rfl hc
        | tail _ h2 => exact h2
      simp [kvLookup, hc, ih this]

/-- Claim C10: every assembled output record has exactly the 16 schema
columns in order (regardless of the extractor outputs), each bound to a
string; the writing step binds every schema column, defaulting a column
missing from the row dict to the empty string — never absent or null. -/
theorem C10_schema_columns :
    ∀ (iid url title problem lang company topics outcome prompt transcript : String)
      (sc : Scores) (r : List (String × String)),
      (finalizeRow
          (rowDict iid url title problem lang company topics outcome prompt transcript
            sc)).map Prod.fst = fieldnames ∧
      fieldnames.length = 16 ∧
      (∀ c, c ∈ fieldnames →
        kvLookup c (finalizeRow r) = some ((kvLookup c r).getD "")) ∧
      (∀ c, c ∈ fieldnames → kvLookup c r = none →
        kvLookup c (finalizeRow r) = some "") := by
  intro iid url title problem lang company topics outcome prompt transcript sc r
  refine ⟨?_, rfl, ?_, ?_⟩
  · rw [finalizeRow, List.map_map]
    exact List.map_id fieldnames
  · intro c hc
    exact kvLookup_map_self fieldnames (fun x => (kvLookup x r).getD "") c hc
  · intro c hc hr
    have h2 := kvLookup_map_self fieldnames (fun x => (kvLookup x r).getD "") c hc
    rw [finalizeRow, h2]
    simp [hr]

/-- Witness for `C10_schema_columns`: a record assembled from all-empty
extractor outputs still has the full column list, and a row dict missing a
column is written as the empty string. -/
theorem C10_schema_columns_witness :
    (finalizeRow (rowDict "" "" "" "" "" "" "" "" "" "" emptyScores)).map Prod.fst =
      fieldnames ∧
    kvLookup "language" (finalizeRow []) = some "" :=
  ⟨(C10_schema_columns "" "" "" "" "" "" "" "" "" "" emptyScores []).1,
   (C10_schema_columns "" "" "" "" "" "" "" "" "" "" emptyScores []).2.2.2 "language"
     (by decide) rfl⟩


/-! ## Claim C9: the flattened transcript is a clean single line -/

/-- No two consecutive space characters. -/
def noTwoSpaces : List Char → Bool
  | a :: b :: t => !(a == ' ' && b == ' ') && noTwoSpaces (b :: t)
  | _ => true

theorem noTwoSpaces_tail (c : Char) (t : List Char)
    (h : noTwoSpaces (c :: t) = true) : noTwoSpaces t = true := by
  cases t with
  | nil => rfl
  | cons x t2 =>
    have h2 := h
    simp only [noTwoSpaces, Bool.and_eq_true] at h2
    exact h2.2

theorem beq_space_false_of_not_ws (a : Char) (ha : pyWsB a = false) :
    (a == ' ') = false := by
  cases hae : a == ' '
  · rfl
  · have : a = ' ' := eq_of_beq hae
    rw [this] at ha
    exact absurd ha (by decide)

theorem noTwoSpaces_append (w rest : List Char) (hw : ∀ c ∈ w, pyWsB c = false)
    (hr : noTwoSpaces rest = true) : noTwoSpaces (w ++ rest) = true := by
  induction w with
  | nil => simpa
  | cons a w1 ih =>
    have ha := beq_space_false_of_not_ws a (hw a (List.mem_cons_self a w1))
    have ih2 := ih (fun c hc => hw c (List.mem_cons_of_mem a hc))
    cases hwr : w1 ++ rest with
    | nil =>
      rw [List.cons_append, hwr]
      rfl
    | cons x t =>
      have hstep : (a :: w1) ++ rest = a :: x :: t := by rw [List.cons_append, hwr]
      rw [hstep]
      simp only [noTwoSpaces, ha, Bool.false_and, Bool.and_eq_true, Bool.not_false,
        true_and]
      rw [← hwr]
      exact ih2

/-- Joining nonempty whitespace-free words with single spaces yields a list
with no two adjacent spaces (even after a further leading space) whose
characters are each the space or whitespace-free. -/
theorem joinWs_good (ws : List (List Char))
    (h : ∀ w ∈ ws, w ≠ [] ∧ ∀ c ∈ w, pyWsB c = false) :
    noTwoSpaces (joinWs ws) = true ∧ noTwoSpaces (' ' :: joinWs ws) = true ∧
    (∀ c ∈ joinWs ws, c = ' ' ∨ pyWsB c = false) := by
  induction ws with
  | nil => exact ⟨rfl, rfl, fun c hc => absurd hc (List.not_mem_nil c)⟩
  | cons w ws1 ih =>
    obtain ⟨hne, hchars⟩ := h w (List.mem_cons_self w ws1)
    cases ws1 with
    | nil =>
      have hJ : joinWs [w] = w := rfl
      have hw0 : noTwoSpaces w = true := by
        have := noTwoSpaces_append w [] hchars rfl
        simpa using this
      refine ⟨by rw [hJ]; exact hw0, ?_, by rw [hJ]; intro c hc; exact Or.inr (hchars c hc)⟩
      rw [hJ]
      cases w with
      | nil => exact absurd rfl hne
      | cons a t =>
        have ha := beq_space_false_of_not_ws a (hchars a (List.mem_cons_self a t))
        simp only [noTwoSpaces, ha, Bool.and_false, Bool.and_eq_true, Bool.not_false,
          true_and]
        exact hw0
    | cons w2 ws2 =>
      have ih2 := ih (fun u hu => h u (List.mem_cons_of_mem w hu))
      obtain ⟨ihJ, ihSpJ, ihMem⟩ := ih2
      have hJ : joinWs (w :: w2 :: ws2) = w ++ ' ' :: joinWs (w2 :: ws2) := rfl
      have hfirst : noTwoSpaces (joinWs (w :: w2 :: ws2)) = true := by
        rw [hJ]
        exact noTwoSpaces_append w (' ' :: joinWs (w2 :: ws2)) hchars ihSpJ
      refine ⟨hfirst, ?_, ?_⟩
      · rw [hJ]
        cases w with
        | nil => exact absurd rfl hne
        | cons a t =>
          have ha := beq_space_false_of_not_ws a (hchars a (List.mem_cons_self a t))
          rw [List.cons_append]
          show noTwoSpaces (' ' :: a :: (t ++ ' ' :: joinWs (w2 :: ws2))) = true
          simp only [noTwoSpaces, ha, Bool.and_false, Bool.and_eq_true, Bool.not_false,
            true_and]
          rw [← List.cons_append]
          rw [hJ] at hfirst
          exact hfirst
      · rw [hJ]
        intro c hc
        rcases List.mem_append.mp hc with hcw | hcj
        · exact Or.inr (hchars c hcw)
        · cases hcj with
          | head => exact Or.inl rfl
          | tail _ h2 => exact ihMem c h2

/-- Every word produced by `splitWsAux` is nonempty and whitespace-free. -/
theorem splitWsAux_good (l : List Char) :
    ∀ cur : List Char, (∀ c ∈ cur, pyWsB c = false) →
      ∀ w ∈ splitWsAux cur l, w ≠ [] ∧ ∀ c ∈ w, pyWsB c = false := by
  induction l with
  | nil =>
    intro cur hcur w hw
    cases cur with
    | nil => exact absurd hw (by simp [splitWsAux])
    | cons a t =>
      have : w = (a :: t).reverse := by
        simpa [splitWsAux] using hw
      subst this
      constructor
      · simp
      · intro c hc
        exact hcur c (List.mem_reverse.mp hc)
  | cons c t ih =>
    intro cur hcur w hw
    by_cases hws : pyWsB c = true
    · rw [splitWsAux, if_pos hws] at hw
      cases cur with
      | nil =>
        rw [List.isEmpty_nil, if_pos rfl] at hw
        exact ih [] (fun c hc => absurd hc (List.not_mem_nil c)) w hw
      | cons a t2 =>
        rw [List.isEmpty_cons, if_neg (by simp)] at hw
        cases hw with
        | head =>
          constructor
          · simp
          · intro x hx
            exact hcur x (List.mem_reverse.mp hx)
        | tail _ h2 =>
          exact ih [] (fun c hc => absurd hc (List.not_mem_nil c)) w h2
    · rw [splitWsAux, if_neg hws] at hw
      refine ih (c :: cur) ?_ w hw
      intro x hx
      cases hx with
      | head => exact Bool.of_not_eq_true hws
      | tail _ h2 => exact hcur x h2

theorem beq_flip_false (u v : Char) (h : (u == v) = false) : (v == u) = false := by
  cases hvu : v == u
  · rfl
  · have he : v = u := eq_of_beq hvu
    subst he
    simp at h

theorem isInfixB_two_spaces_false (l : List Char) (h : noTwoSpaces l = true) :
    isInfixB [' ', ' '] l = false := by
  induction l with
  | nil => rfl
  | cons c t ih =>
    have ht := noTwoSpaces_tail c t h
    cases t with
    | nil => simp [isInfixB, isPrefixB]
    | cons x t2 =>
      have hcx : (c == ' ' && x == ' ') = false := by
        have h2 := h
        simp only [noTwoSpaces, Bool.and_eq_true, Bool.not_eq_true'] at h2
        exact h2.1
      rw [isInfixB, ih ht, Bool.or_false]
      simp only [isPrefixB, Bool.and_true, Bool.and_eq_false_iff] at hcx ⊢
      rcases hcx with hc | hx
      · exact Or.inl (beq_flip_false c ' ' hc)
      · exact Or.inr (beq_flip_false x ' ' hx)

/-- Claim C9: the flattened transcript contains no newline and no run of
two or more spaces (each speaker is colon/whitespace-stripped on the right,
each utterance colon-stripped on the left, fragments are joined with single
spaces and all whitespace collapsed), and the block with bold
"Interviewer:" and italic ": Can you walk me through the problem?" emits
the fragment "Interviewer: Can you walk me through the problem?". -/
theorem C9_transcript_single_line :
    ∀ blocks : List Block,
      (extract_transcript_one_line blocks).data.contains '\n' = false ∧
      isInfixB [' ', ' '] (extract_transcript_one_line blocks).data = false ∧
      transcriptChunk
          (Block.mk (some "Interviewer:") (some ": Can you walk me through the problem?")
            "Interviewer: : Can you walk me through the problem?") =
        some "Interviewer: Can you walk me through the problem?" := by
  intro blocks
  have hdata : (extract_transcript_one_line blocks).data =
      joinWs (splitWsAux []
        (joinSepStr " " (blocks.filterMap transcriptChunk)).data) := rfl
  have hgood := splitWsAux_good
    (joinSepStr " " (blocks.filterMap transcriptChunk)).data []
    (fun c hc => absurd hc (List.not_mem_nil c))
  have hj := joinWs_good _ hgood
  refine ⟨?_, ?_, by decide⟩
  · have hnl : ¬ ('\n' ∈ (extract_transcript_one_line blocks).data) := by
      rw [hdata]
      intro hmem
      rcases hj.2.2 '\n' hmem with h1 | h2
      · exact absurd h1 (by decide)
      · exact absurd h2 (by decide)
    simp [List.contains, hnl]
  · rw [hdata]
    exact isInfixB_two_spaces_false _ hj.1


/-! ## Claim C3: `filter_links` output characterisation -/

theorem charListLe_cons (a b : Char) (as bs : List Char) :
    charListLe (a :: as) (b :: bs) =
      if a < b then true else if b < a then false else charListLe as bs := rfl

theorem charListLe_total : ∀ l m : List Char,
    charListLe l m = true ∨ charListLe m l = true := by
  intro l
  induction l with
  | nil => intro m; exact Or.inl rfl
  | cons a as ih =>
    intro m
    cases m with
    | nil => exact Or.inr rfl
    | cons b bs =>
      rcases lt_trichotomy a b with hab | hab | hab
      · left
        rw [charListLe_cons, if_pos hab]
      · subst hab
        rcases ih bs with h | h
        · left
          rw [charListLe_cons, if_neg (lt_irrefl a), if_neg (lt_irrefl a)]
          exact h
        · right
          rw [charListLe_cons, if_neg (lt_irrefl a), if_neg (lt_irrefl a)]
          exact h
      · right
        rw [charListLe_cons, if_pos hab]

theorem charListLe_trans : ∀ l m n : List Char,
    charListLe l m = true → charListLe m n = true → charListLe l n = true := by
  intro l
  induction l with
  | nil => intro m n h1 h2; rfl
  | cons a as ih =>
    intro m n h1 h2
    cases m with
    | nil => simp [charListLe] at h1
    | cons b bs =>
      cases n with
      | nil => simp [charListLe] at h2
      | cons c cs =>
        rw [charListLe_cons] at h1 h2 ⊢
        rcases lt_trichotomy a b with hab | hab | hab
        · rcases lt_trichotomy b c with hbc | hbc | hbc
          · rw [if_pos (lt_trans hab hbc)]
          · subst hbc
            rw [if_pos hab]
          · rw [if_neg (lt_asymm hbc), if_pos hbc] at h2
            simp at h2
        · subst hab
          rw [if_neg (lt_irrefl a), if_neg (lt_irrefl a)] at h1
          rcases lt_trichotomy a c with hac | hac | hac
          · rw [if_pos hac]
          · subst hac
            rw [if_neg (lt_irrefl a), if_neg (lt_irrefl a)] at h2 ⊢
            exact ih bs cs h1 h2
          · rw [if_neg (lt_asymm hac), if_pos hac] at h2
            simp at h2
        · rw [if_neg (lt_asymm hab), if_pos hab] at h1
          simp at h1

theorem strLeB_total (s t : String) : strLeB s t = true ∨ strLeB t s = true :=
  charListLe_total s.data t.data

theorem strLeB_trans (s t u : String) (h1 : strLeB s t = true) (h2 : strLeB t u = true) :
    strLeB s u = true :=
  charListLe_trans s.data t.data u.data h1 h2

theorem mem_insertSorted (x : String) (l : List String) (y : String) :
    y ∈ insertSorted x l ↔ y = x ∨ y ∈ l := by
  induction l with
  | nil => simp [insertSorted]
  | cons z t ih =>
    by_cases h : strLeB x z = true
    · simp [insertSorted, h]
    · simp only [insertSorted, if_neg h, List.mem_cons, ih]
      tauto

theorem pairwise_insertSorted (x : String) (l : List String)
    (hl : l.Pairwise (fun a b => strLeB a b = true)) :
    (insertSorted x l).Pairwise (fun a b => strLeB a b = true) := by
  induction l with
  | nil => simp [insertSorted]
  | cons y t ih =>
    rw [List.pairwise_cons] at hl
    obtain ⟨hy, ht⟩ := hl
    by_cases h : strLeB x y = true
    · rw [insertSorted, if_pos h, List.pairwise_cons]
      constructor
      · intro z hz
        cases hz with
        | head => exact h
        | tail _ h2 => exact strLeB_trans x y z h (hy z h2)
      · rw [List.pairwise_cons]
        exact ⟨hy, ht⟩
    · rw [insertSorted, if_neg h, List.pairwise_cons]
      constructor
      · intro z hz
        rcases (mem_insertSorted x t z).mp hz with heq | hzt
        · subst heq
          rcases strLeB_total z y with h1 | h1
          · exact absurd h1 h
          · exact h1
        · exact hy z hzt
      · exact ih ht

theorem sortStrings_cons (x : String) (l : List String) :
    sortStrings (x :: l) = insertSorted x (sortStrings l) := rfl

theorem mem_sortStrings (l : List String) (y : String) :
    y ∈ sortStrings l ↔ y ∈ l := by
  induction l with
  | nil => simp [sortStrings]
  | cons x t ih =>
    rw [sortStrings_cons, mem_insertSorted, ih, List.mem_cons]

theorem pairwise_sortStrings (l : List String) :
    (sortStrings l).Pairwise (fun a b => strLeB a b = true) := by
  induction l with
  | nil => simp [sortStrings]
  | cons x t ih => exact pairwise_insertSorted x (sortStrings t) ih

theorem nodup_insertSorted (x : String) (l : List String) (hx : x ∉ l)
    (hl : l.Nodup) : (insertSorted x l).Nodup := by
  induction l with
  | nil => simp [insertSorted]
  | cons y t ih =>
    rw [List.nodup_cons] at hl
    obtain ⟨hyt, htn⟩ := hl
    have hxy : x ≠ y := fun h => hx (h ▸ List.mem_cons_self y t)
    have hxt : x ∉ t := fun h => hx (List.mem_cons_of_mem y h)
    by_cases h : strLeB x y = true
    · rw [insertSorted, if_pos h, List.nodup_cons, List.nodup_cons]
      exact ⟨hx, hyt, htn⟩
    · rw [insertSorted, if_neg h, List.nodup_cons]
      constructor
      · intro hmem
        rcases (mem_insertSorted x t y).mp hmem with h1 | h1
        · exact hxy h1.symm
        · exact hyt h1
      · exact ih hxt htn

theorem nodup_sortStrings (l : List String) (hl : l.Nodup) :
    (sortStrings l).Nodup := by
  induction l with
  | nil => simp [sortStrings]
  | cons x t ih =>
    rw [List.nodup_cons] at hl
    rw [sortStrings_cons]
    exact nodup_insertSorted x (sortStrings t)
      (fun h => hl.1 ((mem_sortStrings t x).mp h)) (ih hl.2)

theorem mem_dedupFirstAux : ∀ (l seen : List String) (y : String),
    y ∈ dedupFirstAux seen l ↔ (y ∈ l ∧ y ∉ seen) := by
  intro l
  induction l with
  | nil =>
    intro seen y
    simp [dedupFirstAux]
  | cons x t ih =>
    intro seen y
    by_cases hx : x ∈ seen
    · rw [dedupFirstAux, if_pos hx, ih]
      constructor
      · rintro ⟨hyt, hys⟩
        exact ⟨List.mem_cons_of_mem x hyt, hys⟩
      · rintro ⟨hyl, hys⟩
        cases hyl with
        | head => exact absurd hx hys
        | tail _ h2 => exact ⟨h2, hys⟩
    · rw [dedupFirstAux, if_neg hx]
      constructor
      · intro hmem
        cases hmem with
        | head => exact ⟨List.mem_cons_self x t, hx⟩
        | tail _ h2 =>
          obtain ⟨hyt, hys⟩ := (ih (x :: seen) y).mp h2
          exact ⟨List.mem_cons_of_mem x hyt, fun hs => hys (List.mem_cons_of_mem x hs)⟩
      · rintro ⟨hyl, hys⟩
        cases hyl with
        | head => exact List.mem_cons_self x _
        | tail _ h2 =>
          by_cases hyx : y = x
          · subst hyx
            exact List.mem_cons_self y _
          · refine List.mem_cons_of_mem x ((ih (x :: seen) y).mpr ⟨h2, ?_⟩)
            intro hs
            cases hs with
            | head => exact hyx rfl
            | tail _ h3 => exact hys h3

theorem nodup_dedupFirstAux : ∀ (l seen : List String), (dedupFirstAux seen l).Nodup := by
  intro l
  induction l with
  | nil =>
    intro seen
    simp [dedupFirstAux]
  | cons x t ih =>
    intro seen
    by_cases hx : x ∈ seen
    · rw [dedupFirstAux, if_pos hx]
      exact ih seen
    · rw [dedupFirstAux, if_neg hx, List.nodup_cons]
      constructor
      · intro hmem
        obtain ⟨_, hns⟩ := (mem_dedupFirstAux t (x :: seen) x).mp hmem
        exact hns (List.mem_cons_self x seen)
      · exact ih (x :: seen)

theorem linkKeep_iff (u : String) :
    linkKeep u = true ↔
      (u ≠ "" ∧ hasSub "mocks" u = true ∧
       hasSub "system-design" u = false ∧ hasSub "behavioral" u = false ∧
       pyRstripChar '/' (pyUrlparsePath u) ≠ "/mocks" ∧
       isPrefixB "/mocks/".data (pyRstripChar '/' (pyUrlparsePath u)).data = true ∧
       3 ≤ (splitOnChar '/' (pyRstripChar '/' (pyUrlparsePath u)).data).length) := by
  rw [linkKeep]
  simp only [Bool.and_eq_true, bne_iff_ne, ne_eq, Bool.not_eq_true', decide_eq_false_iff_not,
    not_lt]
  tauto

/-- Claim C3: `filter_links` returns a subset of its input with no
duplicates, sorted ascending lexicographically, containing exactly the
input URLs that are nonempty, contain "mocks", contain neither
"system-design" nor "behavioral", and whose `urlparse` path with trailing
slashes stripped starts with "/mocks/", is not "/mocks", and has at least
three "/"-separated segments; the three-URL example filters to exactly
["https://x/mocks/abc-def"]. -/
theorem C3_filter_links :
    ∀ urls : List String,
      (∀ u ∈ filter_links urls, u ∈ urls) ∧
      (filter_links urls).Nodup ∧
      (filter_links urls).Pairwise (fun a b => strLeB a b = true) ∧
      (∀ u, u ∈ filter_links urls ↔
        (u ∈ urls ∧ u ≠ "" ∧ hasSub "mocks" u = true ∧
         hasSub "system-design" u = false ∧ hasSub "behavioral" u = false ∧
         pyRstripChar '/' (pyUrlparsePath u) ≠ "/mocks" ∧
         isPrefixB "/mocks/".data (pyRstripChar '/' (pyUrlparsePath u)).data = true ∧
         3 ≤ (splitOnChar '/' (pyRstripChar '/' (pyUrlparsePath u)).data).length)) ∧
      filter_links ["https://x/mocks", "https://x/mocks/abc-def",
        "https://x/mocks/system-design/xyz"] = ["https://x/mocks/abc-def"] := by
  intro urls
  have hmem : ∀ u, u ∈ filter_links urls ↔ (u ∈ urls ∧ linkKeep u = true) := by
    intro u
    rw [filter_links, mem_sortStrings, dedupFirst, mem_dedupFirstAux]
    simp [List.mem_filter]
  refine ⟨?_, ?_, ?_, ?_, by decide⟩
  · intro u hu
    exact ((hmem u).mp hu).1
  · exact nodup_sortStrings _ (nodup_dedupFirstAux _ [])
  · exact pairwise_sortStrings _
  · intro u
    rw [hmem u, linkKeep_iff]

/-- Witness for `C3_filter_links`: the kept URL of the example is in the
input and in the output. -/
theorem C3_filter_links_witness :
    "https://x/mocks/abc-def" ∈
      (["https://x/mocks", "https://x/mocks/abc-def",
        "https://x/mocks/system-design/xyz"] : List String) ∧
    "https://x/mocks/abc-def" ∈
      filter_links ["https://x/mocks", "https://x/mocks/abc-def",
        "https://x/mocks/system-design/xyz"] :=
  ⟨(C3_filter_links ["https://x/mocks", "https://x/mocks/abc-def",
      "https://x/mocks/system-design/xyz"]).1 "https://x/mocks/abc-def" (by decide),
   ((C3_filter_links ["https://x/mocks", "https://x/mocks/abc-def",
      "https://x/mocks/system-design/xyz"]).2.2.2.1 "https://x/mocks/abc-def").mpr
     (by decide)⟩

end DataCentralize
